import Mathlib

/-!
Verification of the reverse-pagination harvesting engine of
`fetch_playwright_optimized.py` (an Ekşi Sözlük scraper for BIST companies).

The Python source is shallowly embedded: pure helpers become Lean functions,
the browser environment (page navigation outcomes, the wall clock) becomes an
explicit environment record that each walk reads, and every Python
`try/except` that converts a failure into a skip/stop becomes the
corresponding `Option` case.  Datetimes are records of calendar fields;
`Europe/Istanbul` is modelled with its fixed UTC+3 offset (the zone has had
no DST since 2016, and `localize(..., is_dst=False)` on the modern zone
always applies +03:00; every date the spec exercises is from 2024).
-/

/-! ## Character and string helpers

The source relies on Python `str.lower`, `str.strip`, `str.replace` and the
`in` substring test.  They are modelled character-listwise. -/

/-- Python `str.lower`, restricted to the characters the scraper can meet:
ASCII letters and the uppercase Turkish letters with single-character
lowercase forms.  (Python maps `'İ'` to `"i̇"`, an `i` plus a combining dot;
the character-to-character model keeps only the `i`.)  Other characters are
returned unchanged, as Python does for all non-cased characters. -/
def pyLowerChar (c : Char) : Char :=
  if c = 'Ü' then 'ü'
  else if c = 'Ğ' then 'ğ'
  else if c = 'Ş' then 'ş'
  else if c = 'Ö' then 'ö'
  else if c = 'Ç' then 'ç'
  else if c = 'İ' then 'i'
  else c.toLower

/-- Python `str.strip()`: drop whitespace from both ends. -/
def stripChars (l : List Char) : List Char :=
  ((l.dropWhile Char.isWhitespace).reverse.dropWhile Char.isWhitespace).reverse

/-- Python `needle in hay` (substring containment). -/
def hasSub (needle : List Char) : List Char → Bool
  | [] => needle.isEmpty
  | c :: rest => needle.isPrefixOf (c :: rest) || hasSub needle rest

/-- Worker for `removeSub`, with fuel (the input length bounds the number of
steps, since every step consumes at least one character). -/
def removeSubAux (n : Char) (ns : List Char) : Nat → List Char → List Char
  | 0, l => l
  | _ + 1, [] => []
  | fuel + 1, c :: rest =>
    if (n :: ns).isPrefixOf (c :: rest) then
      removeSubAux n ns fuel (rest.drop ns.length)
    else
      c :: removeSubAux n ns fuel rest

/-- Python `s.replace(needle, "")` for a non-empty needle `n :: ns`:
remove every (left-to-right, non-overlapping) occurrence. -/
def removeSub (n : Char) (ns : List Char) (l : List Char) : List Char :=
  removeSubAux n ns l.length l

/-- Numeric value of a digit string (the caller checks the characters). -/
def digitsVal (l : List Char) : Nat :=
  l.foldl (fun a c => a * 10 + (c.toNat - 48)) 0

/-! ## Datetimes -/

/-- A wall-clock datetime, minute precision (the formats the scraper parses
carry no seconds). -/
structure DateTime where
  year : Nat
  month : Nat
  day : Nat
  hour : Nat
  minute : Nat
  deriving DecidableEq, Repr, Inhabited

/-- Gregorian leap year, as `datetime` uses. -/
def isLeapYear (y : Nat) : Bool :=
  (y % 4 == 0 && y % 100 != 0) || y % 400 == 0

/-- Days in a month of the proleptic Gregorian calendar. -/
def daysInMonth (y m : Nat) : Nat :=
  if m = 2 then (if isLeapYear y then 29 else 28)
  else if m = 4 ∨ m = 6 ∨ m = 9 ∨ m = 11 then 30
  else 31

/-- `dt - timedelta(days=1)`, on the calendar fields. -/
def prevDay (dt : DateTime) : DateTime :=
  if 2 ≤ dt.day then { dt with day := dt.day - 1 }
  else if 2 ≤ dt.month then
    { dt with month := dt.month - 1, day := daysInMonth dt.year (dt.month - 1) }
  else
    { dt with year := dt.year - 1, month := 12, day := 31 }

/-- `istanbul_tz.localize(dt, is_dst=False).astimezone(timezone.utc)` with the
zone's fixed +03:00 offset: subtract 180 minutes of wall time. -/
def istanbulToUtc (dt : DateTime) : DateTime :=
  let total := dt.hour * 60 + dt.minute
  if 180 ≤ total then
    { dt with hour := (total - 180) / 60, minute := (total - 180) % 60 }
  else
    let p := prevDay dt
    let t2 := total + 1440 - 180
    { p with hour := t2 / 60, minute := t2 % 60 }

/-- The calendar fields describe a real instant (month and day in range for
the year, hour below 24, minute below 60). -/
def DateTime.Valid (dt : DateTime) : Prop :=
  1 ≤ dt.month ∧ dt.month ≤ 12 ∧ 1 ≤ dt.day ∧ dt.day ≤ daysInMonth dt.year dt.month
    ∧ dt.hour ≤ 23 ∧ dt.minute ≤ 59

instance (dt : DateTime) : Decidable dt.Valid := by
  unfold DateTime.Valid; infer_instance

/-! ## `datetime.strptime` for the three formats the source uses

CPython compiles a format to a regex: `%H` matches an hour written with one
or two digits and value at most 23, `%M` a minute of value at most 59, `%d`
a day in 1..31, `%m` a month in 1..12, `%Y` exactly four digits, and a
space in the format matches a run of whitespace; any unconverted trailing
text raises `ValueError`, as does a day impossible for the month or a year
below `MINYEAR = 1` when the `datetime` is built. -/

/-- `datetime.strptime(l, "%H:%M")`, returning the hour and minute. -/
def parseHM (l : List Char) : Option (Nat × Nat) :=
  let hh := l.takeWhile Char.isDigit
  let r1 := l.dropWhile Char.isDigit
  if hh.length = 0 ∨ 2 < hh.length then none
  else
    match r1 with
    | ':' :: r2 =>
      let mm := r2.takeWhile Char.isDigit
      let r3 := r2.dropWhile Char.isDigit
      if mm.length = 0 ∨ 2 < mm.length ∨ r3 ≠ [] then none
      else
        let h := digitsVal hh
        let m := digitsVal mm
        if h ≤ 23 ∧ m ≤ 59 then some (h, m) else none
    | _ => none

/-- Day, month, year and the rest of the input, for the shared
`"%d.%m.%Y"` head of both absolute formats. -/
def parseDMYCore (l : List Char) : Option (Nat × Nat × Nat × List Char) :=
  let dd := l.takeWhile Char.isDigit
  let r1 := l.dropWhile Char.isDigit
  if dd.length = 0 ∨ 2 < dd.length then none
  else
    match r1 with
    | '.' :: r2 =>
      let mm := r2.takeWhile Char.isDigit
      let r3 := r2.dropWhile Char.isDigit
      if mm.length = 0 ∨ 2 < mm.length then none
      else
        match r3 with
        | '.' :: r4 =>
          let yy := r4.takeWhile Char.isDigit
          let r5 := r4.dropWhile Char.isDigit
          if yy.length ≠ 4 then none
          else
            let d := digitsVal dd
            let m := digitsVal mm
            let y := digitsVal yy
            if 1 ≤ d ∧ 1 ≤ m ∧ m ≤ 12 ∧ d ≤ daysInMonth y m ∧ 1 ≤ y then
              some (d, m, y, r5)
            else none
        | _ => none
    | _ => none

/-- `datetime.strptime(l, "%d.%m.%Y %H:%M")`. -/
def parseDMYHM (l : List Char) : Option DateTime :=
  match parseDMYCore l with
  | some (d, m, y, c :: r5) =>
    if c.isWhitespace then
      match parseHM ((c :: r5).dropWhile Char.isWhitespace) with
      | some (h, mi) => some ⟨y, m, d, h, mi⟩
      | none => none
    else none
  | _ => none

/-- `datetime.strptime(l, "%d.%m.%Y")` (midnight implied). -/
def parseDMY (l : List Char) : Option DateTime :=
  match parseDMYCore l with
  | some (d, m, y, []) => some ⟨y, m, d, 0, 0⟩
  | _ => none

/-! ## The timestamp normalizer `parse_eksi_date_fast`

The Python function reads the clock itself (`datetime.now(istanbul_tz)`);
the embedding takes that reference instant — a wall-clock datetime in the
source's time zone — as the argument `now_istanbul`.  Every failure path of
the source (`ValueError` from `strptime`, the explicit `return None`) is an
explicit `none` here, so the function is total: no exception escapes. -/

def parse_eksi_date_fast (date_str : String) (now_istanbul : DateTime) :
    Option DateTime :=
  let s := (stripChars date_str.data).map pyLowerChar
  if hasSub ['b', 'u', 'g', 'ü', 'n'] s then
    match parseHM (stripChars (removeSub 'b' ['u', 'g', 'ü', 'n'] s)) with
    | some (h, m) =>
      some (istanbulToUtc
        { year := now_istanbul.year, month := now_istanbul.month,
          day := now_istanbul.day, hour := h, minute := m })
    | none => none
  else if hasSub ['d', 'ü', 'n'] s then
    let yd := prevDay now_istanbul
    match parseHM (stripChars (removeSub 'd' ['ü', 'n'] s)) with
    | some (h, m) =>
      some (istanbulToUtc
        { year := yd.year, month := yd.month, day := yd.day,
          hour := h, minute := m })
    | none => none
  else
    match parseDMYHM s with
    | some dt => some (istanbulToUtc dt)
    | none =>
      match parseDMY s with
      | some dt => some (istanbulToUtc dt)
      | none => none

/-! ## The resource locator's slug (`get_topic_url_fast`, lines 149–154)

The slug computation is the pure head of `get_topic_url_fast`: lowercase,
six fixed letter substitutions, space to hyphen, periods and commas
stripped.  Python's single-character `str.replace` is a map (or, when the
replacement is empty, a filter) over the characters. -/

def BASE_URL : String := "https://eksisozluk.com"

/-- Lines 149–152 of the source, on a character list. -/
def slugChars (l : List Char) : List Char :=
  let s := l.map pyLowerChar
  let s := s.map (fun c => if c = 'ı' then 'i' else c)
  let s := s.map (fun c => if c = 'ğ' then 'g' else c)
  let s := s.map (fun c => if c = 'ü' then 'u' else c)
  let s := s.map (fun c => if c = 'ş' then 's' else c)
  let s := s.map (fun c => if c = 'ö' then 'o' else c)
  let s := s.map (fun c => if c = 'ç' then 'c' else c)
  let s := s.map (fun c => if c = ' ' then '-' else c)
  let s := s.filter (fun c => c ≠ '.')
  let s := s.filter (fun c => c ≠ ',')
  s

/-- The slug of a search term (`url_term` in the source). -/
def slugify (search_term : String) : String :=
  ⟨slugChars search_term.data⟩

/-- The requested topic URL, line 154. -/
def topicUrlOf (search_term : String) : String :=
  BASE_URL ++ "/" ++ slugify search_term

/-- One character's contribution to the slug, written after the spec's words
(§4.2 step 1): lowercase; replace the fixed letter set with ASCII
equivalents; replace spaces with hyphens; strip periods and commas.  Used to
compare the source's chain of whole-string passes against the spec's
description. -/
def slugSpecChar (c : Char) : List Char :=
  let c1 := pyLowerChar c
  let c2 :=
    if c1 = 'ı' then 'i'
    else if c1 = 'ğ' then 'g'
    else if c1 = 'ü' then 'u'
    else if c1 = 'ş' then 's'
    else if c1 = 'ö' then 'o'
    else if c1 = 'ç' then 'c'
    else c1
  let c3 := if c2 = ' ' then '-' else c2
  if c3 = '.' ∨ c3 = ',' then [] else [c3]

/-- The spec's slugification, character by character. -/
def slugifySpec (search_term : String) : String :=
  ⟨(search_term.data.map slugSpecChar).flatten⟩

/-! ## Subjects and the input loader (`load_companies_from_json`) -/

/-- `CompanyInfo`, the source's dataclass. -/
structure CompanyInfo where
  ticker : String
  official_name : String
  short_name : String
  common_names : List String
  eksi_search_terms : List String
  sector : String
  is_active : Bool
  deriving DecidableEq, Repr

/-- One entry of the old input shape `{"companies": {...}}`: every field is
looked up with `[...]`, so a well-formed entry carries them all;
`is_active` alone is read with `.get(..., True)`. -/
structure CompanyDataOld where
  ticker : String
  official_name : String
  short_name : String
  common_names : List String
  eksi_search_terms : List String
  sector : String
  is_active : Option Bool

/-- One entry of the new list shape: every field is read with `.get` and a
default, so each may be absent. -/
structure CompanyDataNew where
  ticker : Option String
  official_name : Option String
  short_name : Option String
  common_names : Option (List String)
  eksi_search_terms : Option (List String)
  sector : Option String
  is_active : Option Bool

/-- `companies[key] = v` on an association list modelling the Python dict:
an existing key keeps its position and gets the new value. -/
def upsert (k : String) (v : CompanyInfo) :
    List (String × CompanyInfo) → List (String × CompanyInfo)
  | [] => [(k, v)]
  | (k', v') :: rest => if k' = k then (k, v) :: rest else (k', v') :: upsert k v rest

/-- The old-shape branch of `load_companies_from_json` (lines 74–85): the
dict key is the loop's `ticker`, and the search-term list is truncated with
`[:1]`. -/
def load_companies_old (entries : List (String × CompanyDataOld)) :
    List (String × CompanyInfo) :=
  entries.foldl
    (fun companies e =>
      upsert e.1
        { ticker := e.2.ticker
          official_name := e.2.official_name
          short_name := e.2.short_name
          common_names := e.2.common_names
          eksi_search_terms := e.2.eksi_search_terms.take 1
          sector := e.2.sector
          is_active := e.2.is_active.getD true }
        companies)
    []

/-- The new-shape branch (lines 86–98): defaults from `.get`, and the same
`[:1]` truncation. -/
def load_companies_new (entries : List CompanyDataNew) :
    List (String × CompanyInfo) :=
  entries.foldl
    (fun companies e =>
      upsert (e.ticker.getD "")
        { ticker := e.ticker.getD ""
          official_name := e.official_name.getD ""
          short_name := e.short_name.getD ""
          common_names := e.common_names.getD []
          eksi_search_terms := (e.eksi_search_terms.getD []).take 1
          sector := e.sector.getD "unknown"
          is_active := e.is_active.getD true }
        companies)
    []

/-! ## Raw items, records and the record extractor -/

/-- One `<li>` of the entry list, as the extractor reads it: the `data-id`
attribute (absent → `none`), the inner text of the content, author and date
elements (`none` when the element is missing), and a flag for any other
failure while reading the item's fields (the `except` of lines 266–267). -/
structure RawItem where
  dataId : Option String
  contentText : Option String
  authorText : Option String
  dateText : Option String
  broken : Bool
  deriving DecidableEq, Repr

/-- One emitted record, the dict of lines 252–264.  `entry_datetime_utc`
keeps the parsed datetime (`None` in Python when unparsable), and
`fetch_timestamp_utc` the walk's single fetch instant. -/
structure Record where
  company_ticker : String
  company_official_name : String
  search_term_used : String
  topic_url : String
  entry_id : String
  entry_content : String
  entry_author : String
  entry_date_str : String
  entry_datetime_utc : Option DateTime
  fetch_timestamp_utc : DateTime
  page_number : Nat
  deriving DecidableEq, Repr, Inhabited

/-- Python `.strip()` on a string. -/
def pyStrip (s : String) : String := ⟨stripChars s.data⟩

/-- The per-page context the extractor closes over: the subject, the term,
the page's URL and index, and the two instants captured per walk. -/
structure ExtractCtx where
  company : CompanyInfo
  term : String
  targetUrl : String
  pageNum : Nat
  nowIst : DateTime
  fetchTs : DateTime

/-- Lines 234–264: skip the item if reading it failed, if `data-id` is
missing or empty (Python `if not entry_id`), or if any of the content,
author and date elements is missing; otherwise build the record.  A
timestamp-parse failure only makes `entry_datetime_utc` `none`. -/
def extractRecord (ctx : ExtractCtx) (item : RawItem) : Option Record :=
  if item.broken then none
  else
    match item.dataId with
    | none => none
    | some id =>
      if id = "" then none
      else
        match item.contentText, item.authorText, item.dateText with
        | some c, some a, some d =>
          let date_str := pyStrip d
          some
            { company_ticker := ctx.company.ticker
              company_official_name := ctx.company.official_name
              search_term_used := ctx.term
              topic_url := ctx.targetUrl
              entry_id := id
              entry_content := pyStrip c
              entry_author := pyStrip a
              entry_date_str := date_str
              entry_datetime_utc := parse_eksi_date_fast date_str ctx.nowIst
              fetch_timestamp_utc := ctx.fetchTs
              page_number := ctx.pageNum }
        | _, _, _ => none

/-- The item yields a record (under any context): not broken, a non-empty
`data-id`, and all three of content, author and date present. -/
def extractOk (item : RawItem) : Prop :=
  item.broken = false ∧ (∃ id, item.dataId = some id ∧ id ≠ "")
    ∧ item.contentText.isSome ∧ item.authorText.isSome ∧ item.dateText.isSome

/-! ## The reverse page walker (`fetch_entries_fast`) -/

/-- The browser-facing environment of one walk: for each page index, the
outcome of `goto` + `wait_for_selector` + `query_selector_all` (`none` when
navigation or the selector wait fails, otherwise the page's items in DOM
order); the Istanbul wall clock read by the date parser; and
`datetime.now(timezone.utc)` captured once at the walk's start (line 201). -/
structure WalkEnv where
  pages : Nat → Option (List RawItem)
  nowIst : DateTime
  fetchTs : DateTime

/-- The context for one page of one walk: page 1 uses the bare topic URL,
deeper pages append `?p=N` (lines 208–211). -/
def pageCtx (env : WalkEnv) (company : CompanyInfo) (term topic_url : String)
    (p : Nat) : ExtractCtx :=
  { company := company
    term := term
    targetUrl := if p = 1 then topic_url else topic_url ++ "?p=" ++ toString p
    pageNum := p
    nowIst := env.nowIst
    fetchTs := env.fetchTs }

/-- The inner `for entry_el in reversed(entry_elements)` loop (lines
230–267): stop once the accumulator reaches the limit, skip items that do
not extract, append the rest in order. -/
def processItems (ctx : ExtractCtx) (limit : Nat) :
    List RawItem → List Record → List Record
  | [], acc => acc
  | it :: rest, acc =>
    if limit ≤ acc.length then acc
    else
      match extractRecord ctx it with
      | none => processItems ctx limit rest acc
      | some r => processItems ctx limit rest (acc ++ [r])

/-- The `while len(all_entries) < LIMIT and current_page >= 1` loop of
`fetch_entries_fast`, returning the records and the list of page indices the
loop requested.  A failed page load (`env.pages p = none`) and an empty item
list both `break`; otherwise the page's items are processed in reverse DOM
order and `current_page` decreases by one. -/
def fetchLoop (env : WalkEnv) (company : CompanyInfo) (term topic_url : String)
    (limit : Nat) : Nat → List Record → List Record × List Nat
  | 0, acc => (acc, [])
  | page + 1, acc =>
    if limit ≤ acc.length then (acc, [])
    else
      match env.pages (page + 1) with
      | none => (acc, [page + 1])
      | some [] => (acc, [page + 1])
      | some (i :: items) =>
        let acc2 := processItems (pageCtx env company term topic_url (page + 1))
          limit ((i :: items).reverse) acc
        let rest := fetchLoop env company term topic_url limit page acc2
        (rest.1, (page + 1) :: rest.2)

/-- `fetch_entries_fast` (lines 198–286): walk backwards from
`start_page_num`, accumulating from the empty list.  The first component is
the returned record list, the second the pages requested. -/
def fetch_entries_fast (env : WalkEnv) (topic_url : String)
    (company : CompanyInfo) (term : String) (start_page_num limit : Nat) :
    List Record × List Nat :=
  fetchLoop env company term topic_url limit start_page_num []

/-! ## The subject runner and the batch loop -/

/-- One subject-run's environment: whether an uncaught fault strikes the run
(the `except` of lines 324–326 turns it into an empty result), the outcome
of `get_topic_url_fast` (canonical URL and last-page index, or `None`), and
the walk's browser environment. -/
structure SubjectEnv where
  crash : Bool
  topicInfo : Option (String × Nat)
  walk : WalkEnv

/-- `process_company_fast` (lines 288–337): only the first search term is
consulted (`[:1]`); a missing topic yields no records; a subject-level
fault yields the empty list.  With a single term the `processed_urls`
dedup set and the post-extend limit break cannot change the result. -/
def process_company_fast (env : SubjectEnv) (company : CompanyInfo)
    (limit : Nat) : List Record :=
  if env.crash then []
  else
    match company.eksi_search_terms.take 1 with
    | [] => []
    | term :: _ =>
      match env.topicInfo with
      | none => []
      | some (topic_url, start_page_num) =>
        (fetch_entries_fast env.walk topic_url company term start_page_num limit).1

/-- The sequential company loop of `main` (lines 396–413): every company is
attempted exactly once; its records are appended to the run's accumulator
(extending with an empty result and skipping it coincide).  Returns the
accumulated records and how many companies were attempted. -/
def main_run (limit : Nat) (companies : List (CompanyInfo × SubjectEnv)) :
    List Record × Nat :=
  companies.foldl
    (fun acc ce => (acc.1 ++ process_company_fast ce.2 ce.1 limit, acc.2 + 1))
    ([], 0)

/-- The source's `ENTRIES_PER_COMPANY_LIMIT` (line 56).  The walker and
runner take the limit as a parameter — it is the spec's `HarvestLimit`
configuration value — and the program instantiates it with this constant. -/
def ENTRIES_PER_COMPANY_LIMIT : Nat := 5

/-! ## Lemmas about the walker's structure -/

theorem fetchLoop_zero (env : WalkEnv) (company : CompanyInfo)
    (term topic_url : String) (limit : Nat) (acc : List Record) :
    fetchLoop env company term topic_url limit 0 acc = (acc, []) := rfl

theorem fetchLoop_succ (env : WalkEnv) (company : CompanyInfo)
    (term topic_url : String) (limit page : Nat) (acc : List Record) :
    fetchLoop env company term topic_url limit (page + 1) acc =
      if limit ≤ acc.length then (acc, [])
      else
        match env.pages (page + 1) with
        | none => (acc, [page + 1])
        | some [] => (acc, [page + 1])
        | some (i :: items) =>
          let acc2 := processItems (pageCtx env company term topic_url (page + 1))
            limit ((i :: items).reverse) acc
          let rest := fetchLoop env company term topic_url limit page acc2
          (rest.1, (page + 1) :: rest.2) := rfl

/-- The inner item loop appends exactly the extractable items' records, in
order, truncated to the room the limit leaves. -/
theorem processItems_eq (ctx : ExtractCtx) (limit : Nat) :
    ∀ (items : List RawItem) (acc : List Record),
      processItems ctx limit items acc =
        acc ++ (items.filterMap (extractRecord ctx)).take (limit - acc.length) := by
  intro items
  induction items with
  | nil => intro acc; simp [processItems]
  | cons it rest ih =>
    intro acc
    by_cases h : limit ≤ acc.length
    · have h0 : limit - acc.length = 0 := by omega
      simp [processItems, h, h0]
    · cases hext : extractRecord ctx it with
      | none => simp [processItems, h, hext, ih]
      | some r =>
        have harith : limit - acc.length = (limit - (acc.length + 1)) + 1 := by omega
        simp only [processItems, if_neg h, hext, ih, List.filterMap_cons,
          List.length_append, List.length_cons, List.length_nil,
          List.append_assoc, List.singleton_append]
        rw [harith, List.take_succ_cons]

/-- Every record the walk adds comes from extracting some item of some
requested page between 1 and the current page. -/
theorem fetchLoop_append (env : WalkEnv) (company : CompanyInfo)
    (term topic_url : String) (limit : Nat) :
    ∀ (page : Nat) (acc : List Record),
      ∃ rest, (fetchLoop env company term topic_url limit page acc).1 = acc ++ rest
        ∧ ∀ r ∈ rest, ∃ p, 1 ≤ p ∧ p ≤ page ∧ ∃ items, env.pages p = some items
            ∧ ∃ it ∈ items, extractRecord (pageCtx env company term topic_url p) it = some r := by
  intro page
  induction page with
  | zero => intro acc; exact ⟨[], by simp [fetchLoop_zero]⟩
  | succ page ih =>
    intro acc
    rw [fetchLoop_succ]
    by_cases h : limit ≤ acc.length
    · exact ⟨[], by simp [h]⟩
    · cases henv : env.pages (page + 1) with
      | none => exact ⟨[], by simp [h]⟩
      | some items =>
        cases items with
        | nil => exact ⟨[], by simp [h]⟩
        | cons i its =>
          simp only [if_neg h]
          rw [processItems_eq]
          obtain ⟨rest', heq, hmem⟩ :=
            ih (acc ++ (((i :: its).reverse.filterMap
              (extractRecord (pageCtx env company term topic_url (page + 1)))).take
                (limit - acc.length)))
          refine ⟨((i :: its).reverse.filterMap
              (extractRecord (pageCtx env company term topic_url (page + 1)))).take
                (limit - acc.length) ++ rest', ?_, ?_⟩
          · simpa [List.append_assoc] using heq
          · intro r hr
            rcases List.mem_append.mp hr with hr | hr
            · have hr2 := List.mem_filterMap.mp (List.mem_of_mem_take hr)
              obtain ⟨it, hit, hext⟩ := hr2
              exact ⟨page + 1, by omega, le_refl _, i :: its, henv, it,
                List.mem_reverse.mp hit, hext⟩
            · obtain ⟨p, hp1, hp2, rest⟩ := hmem r hr
              exact ⟨p, hp1, by omega, rest⟩

/-- The walk never grows the accumulator past the limit. -/
theorem fetchLoop_length (env : WalkEnv) (company : CompanyInfo)
    (term topic_url : String) (limit : Nat) :
    ∀ (page : Nat) (acc : List Record), acc.length ≤ limit →
      (fetchLoop env company term topic_url limit page acc).1.length ≤ limit := by
  intro page
  induction page with
  | zero => intro acc h; simpa [fetchLoop_zero] using h
  | succ page ih =>
    intro acc h
    rw [fetchLoop_succ]
    by_cases hl : limit ≤ acc.length
    · simpa [hl] using h
    · cases henv : env.pages (page + 1) with
      | none => simpa [hl] using h
      | some items =>
        cases items with
        | nil => simpa [hl] using h
        | cons i its =>
          simp only [if_neg hl]
          apply ih
          rw [processItems_eq]
          simp only [List.length_append]
          have := List.length_take_le (limit - acc.length)
            ((i :: its).reverse.filterMap
              (extractRecord (pageCtx env company term topic_url (page + 1))))
          omega

/-- The requested pages count down by exactly one from the start page. -/
theorem fetchLoop_visited (env : WalkEnv) (company : CompanyInfo)
    (term topic_url : String) (limit : Nat) :
    ∀ (page : Nat) (acc : List Record),
      ∃ k, k ≤ page ∧ (fetchLoop env company term topic_url limit page acc).2 =
        (List.range k).map (fun i => page - i) := by
  intro page
  induction page with
  | zero => intro acc; exact ⟨0, le_refl _, by simp [fetchLoop_zero]⟩
  | succ page ih =>
    intro acc
    rw [fetchLoop_succ]
    by_cases h : limit ≤ acc.length
    · exact ⟨0, by omega, by simp [h]⟩
    · cases henv : env.pages (page + 1) with
      | none => exact ⟨1, by omega, by simp [h, List.range_succ]⟩
      | some items =>
        cases items with
        | nil => exact ⟨1, by omega, by simp [h, List.range_succ]⟩
        | cons i its =>
          simp only [if_neg h]
          obtain ⟨k, hk, heq⟩ := ih (processItems
            (pageCtx env company term topic_url (page + 1)) limit
            ((i :: its).reverse) acc)
          refine ⟨k + 1, by omega, ?_⟩
          rw [List.range_succ_eq_map]
          simp only [heq, List.map_cons, List.map_map, Nat.sub_zero]
          congr 1
          apply List.map_congr_left
          intro i hi
          simp only [Function.comp_apply]
          omega

/-- What a successful extraction guarantees about the record: a non-empty
identifier, the page's index and URL, the walk's fetch instant, and a
normalized timestamp that is exactly the parse of the record's own
(stripped) raw date text. -/
theorem extractRecord_some {ctx : ExtractCtx} {it : RawItem} {r : Record}
    (h : extractRecord ctx it = some r) :
    r.entry_id ≠ "" ∧ r.page_number = ctx.pageNum ∧ r.fetch_timestamp_utc = ctx.fetchTs
      ∧ r.entry_datetime_utc = parse_eksi_date_fast r.entry_date_str ctx.nowIst
      ∧ r.topic_url = ctx.targetUrl ∧ r.search_term_used = ctx.term := by
  cases hb : it.broken with
  | true => simp [extractRecord, hb] at h
  | false =>
    cases hid : it.dataId with
    | none => simp [extractRecord, hb, hid] at h
    | some id =>
      by_cases hid0 : id = ""
      · simp [extractRecord, hb, hid, hid0] at h
      · cases hc : it.contentText with
        | none => simp [extractRecord, hb, hid, hid0, hc] at h
        | some c =>
          cases ha : it.authorText with
          | none => simp [extractRecord, hb, hid, hid0, hc, ha] at h
          | some a =>
            cases hd : it.dateText with
            | none => simp [extractRecord, hb, hid, hid0, hc, ha, hd] at h
            | some d =>
              simp only [extractRecord, hb, hid, hid0, hc, ha, hd, if_neg hid0,
                Bool.false_eq_true, if_false, Option.some.injEq] at h
              subst h
              refine ⟨by simpa using hid0, by simp, by simp, by simp, by simp, by simp⟩

/-- `extractOk` items extract under every context. -/
theorem extractOk_isSome {it : RawItem} (h : extractOk it) (ctx : ExtractCtx) :
    (extractRecord ctx it).isSome := by
  obtain ⟨hb, ⟨id, hid, hid0⟩, hc, ha, hd⟩ := h
  obtain ⟨c, hc⟩ := Option.isSome_iff_exists.mp hc
  obtain ⟨a, ha⟩ := Option.isSome_iff_exists.mp ha
  obtain ⟨d, hd⟩ := Option.isSome_iff_exists.mp hd
  simp [extractRecord, hb, hid, hid0, hc, ha, hd]

/-- The extractor emits a record exactly when the item is not broken, has a
non-empty identifier and all three sub-elements — the raw date text's
parseability plays no part. -/
theorem extractRecord_isSome_iff (ctx : ExtractCtx) (it : RawItem) :
    (extractRecord ctx it).isSome ↔ extractOk it := by
  constructor
  · intro h
    cases hb : it.broken
    · cases hid : it.dataId with
      | none => simp [extractRecord, hb, hid] at h
      | some id =>
        by_cases hid0 : id = ""
        · simp [extractRecord, hb, hid, hid0] at h
        · cases hc : it.contentText with
          | none => simp [extractRecord, hb, hid, hid0, hc] at h
          | some c =>
            cases ha : it.authorText with
            | none => simp [extractRecord, hb, hid, hid0, hc, ha] at h
            | some a =>
              cases hd : it.dateText with
              | none => simp [extractRecord, hb, hid, hid0, hc, ha, hd] at h
              | some d =>
                exact ⟨hb, ⟨id, hid, hid0⟩, by simp [hc], by simp [ha], by simp [hd]⟩
    · simp [extractRecord, hb] at h
  · intro h
    exact extractOk_isSome h ctx

/-- The walk's records carrying a given page index are exactly an initial
run of that page's reverse-order extraction (empty when the page was never
reached). -/
theorem fetchLoop_filter_page (env : WalkEnv) (company : CompanyInfo)
    (term topic_url : String) (limit : Nat) :
    ∀ (page : Nat) (acc : List Record), (∀ r ∈ acc, page < r.page_number) →
      ∀ p items, 1 ≤ p → p ≤ page → env.pages p = some items →
        ∃ n, ((fetchLoop env company term topic_url limit page acc).1.filter
            (fun r => r.page_number == p)) =
          ((items.reverse).filterMap
            (extractRecord (pageCtx env company term topic_url p))).take n := by
  intro page
  induction page with
  | zero => intro acc hacc p items hp1 hp2; omega
  | succ page ih =>
    intro acc hacc p items hp1 hp2 henvp
    rw [fetchLoop_succ]
    by_cases h : limit ≤ acc.length
    · refine ⟨0, ?_⟩
      simp only [if_pos h, List.take_zero]
      refine List.filter_eq_nil_iff.mpr ?_
      intro r hr
      have := hacc r hr
      simp only [beq_iff_eq]
      omega
    · cases henv : env.pages (page + 1) with
      | none =>
        rcases Nat.lt_or_ge p (page + 1) with hlt | hge
        · refine ⟨0, ?_⟩
          simp only [if_neg h, henv, List.take_zero]
          refine List.filter_eq_nil_iff.mpr ?_
          intro r hr
          have := hacc r hr
          simp only [beq_iff_eq]
          omega
        · have : p = page + 1 := by omega
          subst this
          rw [henvp] at henv
          cases henv
      | some its =>
        cases its with
        | nil =>
          rcases Nat.lt_or_ge p (page + 1) with hlt | hge
          · refine ⟨0, ?_⟩
            simp only [if_neg h, henv, List.take_zero]
            refine List.filter_eq_nil_iff.mpr ?_
            intro r hr
            have := hacc r hr
            simp only [beq_iff_eq]
            omega
          · have : p = page + 1 := by omega
            subst this
            rw [henvp] at henv
            cases henv
            refine ⟨0, ?_⟩
            simp only [if_neg h, List.take_zero]
            refine List.filter_eq_nil_iff.mpr ?_
            intro r hr
            have := hacc r hr
            simp only [beq_iff_eq]
            omega
        | cons i its =>
          simp only [if_neg h, henv]
          rw [processItems_eq]
          have hnewmem : ∀ r ∈ ((i :: its).reverse.filterMap
              (extractRecord (pageCtx env company term topic_url (page + 1)))).take
                (limit - acc.length), r.page_number = page + 1 := by
            intro r hr
            obtain ⟨it, _, hext⟩ := List.mem_filterMap.mp (List.mem_of_mem_take hr)
            exact (extractRecord_some hext).2.1
          rcases Nat.lt_or_ge p (page + 1) with hlt | hge
          · -- a deeper page: delegate to the remaining walk
            have hacc2 : ∀ r ∈ acc ++ ((i :: its).reverse.filterMap
                (extractRecord (pageCtx env company term topic_url (page + 1)))).take
                  (limit - acc.length), page < r.page_number := by
              intro r hr
              rcases List.mem_append.mp hr with hr | hr
              · have := hacc r hr; omega
              · have := hnewmem r hr; omega
            obtain ⟨n, hn⟩ := ih _ hacc2 p items hp1 (by omega) henvp
            exact ⟨n, hn⟩
          · -- this page's records are exactly the new ones
            have hpp : p = page + 1 := by omega
            subst hpp
            rw [henvp] at henv
            cases henv
            obtain ⟨restL, hres, hmem⟩ := fetchLoop_append env company term topic_url
              limit page (acc ++ ((i :: its).reverse.filterMap
                (extractRecord (pageCtx env company term topic_url (page + 1)))).take
                  (limit - acc.length))
            refine ⟨limit - acc.length, ?_⟩
            simp only [hres, List.filter_append]
            have h1 : acc.filter (fun r => r.page_number == page + 1) = [] := by
              refine List.filter_eq_nil_iff.mpr ?_
              intro r hr
              have := hacc r hr
              simp only [beq_iff_eq]
              omega
            have h2 : (((i :: its).reverse.filterMap
                (extractRecord (pageCtx env company term topic_url (page + 1)))).take
                  (limit - acc.length)).filter (fun r => r.page_number == page + 1) =
                ((i :: its).reverse.filterMap
                  (extractRecord (pageCtx env company term topic_url (page + 1)))).take
                    (limit - acc.length) := by
              refine List.filter_eq_self.mpr ?_
              intro r hr
              have := hnewmem r hr
              simp only [beq_iff_eq]
              omega
            have h3 : restL.filter (fun r => r.page_number == page + 1) = [] := by
              refine List.filter_eq_nil_iff.mpr ?_
              intro r hr
              obtain ⟨q, hq1, hq2, _, _, it, _, hext⟩ := hmem r hr
              have hpn : r.page_number = q := (extractRecord_some hext).2.1
              simp only [beq_iff_eq]
              omega
            rw [h1, h2, h3]
            simp

/-! ## Validity of the normalizer's output -/

theorem daysInMonth_bounds (y m : Nat) : 28 ≤ daysInMonth y m ∧ daysInMonth y m ≤ 31 := by
  unfold daysInMonth
  split_ifs <;> omega

theorem daysInMonth_twelve (y : Nat) : daysInMonth y 12 = 31 := by
  simp [daysInMonth]

theorem prevDay_valid {dt : DateTime} (h : dt.Valid) : (prevDay dt).Valid := by
  obtain ⟨h1, h2, h3, h4, h5, h6⟩ := h
  have hb := daysInMonth_bounds dt.year (dt.month - 1)
  have h12 := daysInMonth_twelve (dt.year - 1)
  unfold prevDay DateTime.Valid
  split_ifs with hd hm <;> refine ⟨?_, ?_, ?_, ?_, ?_, ?_⟩ <;> dsimp only <;> omega

theorem istanbulToUtc_valid {dt : DateTime} (h : dt.Valid) :
    (istanbulToUtc dt).Valid := by
  obtain ⟨h1, h2, h3, h4, h5, h6⟩ := h
  obtain ⟨g1, g2, g3, g4, _, _⟩ :=
    prevDay_valid (⟨h1, h2, h3, h4, h5, h6⟩ : dt.Valid)
  unfold istanbulToUtc DateTime.Valid
  dsimp only
  split_ifs with ht <;> refine ⟨?_, ?_, ?_, ?_, ?_, ?_⟩ <;> dsimp only <;> omega

theorem parseHM_le {l : List Char} {h m : Nat} (hp : parseHM l = some (h, m)) :
    h ≤ 23 ∧ m ≤ 59 := by
  unfold parseHM at hp
  dsimp only at hp
  split at hp
  · cases hp
  · split at hp
    · split at hp
      · cases hp
      · split at hp
        next hcond =>
          simp only [Option.some.injEq, Prod.mk.injEq] at hp
          obtain ⟨rfl, rfl⟩ := hp
          exact hcond
        · cases hp
    · cases hp

theorem parseDMYCore_le {l r : List Char} {d m y : Nat}
    (hp : parseDMYCore l = some (d, m, y, r)) :
    1 ≤ d ∧ d ≤ daysInMonth y m ∧ 1 ≤ m ∧ m ≤ 12 := by
  unfold parseDMYCore at hp
  dsimp only at hp
  split at hp
  · cases hp
  · split at hp
    · split at hp
      · cases hp
      · split at hp
        · split at hp
          · cases hp
          · split at hp
            next hcond =>
              simp only [Option.some.injEq, Prod.mk.injEq] at hp
              obtain ⟨rfl, rfl, rfl, rfl⟩ := hp
              exact ⟨hcond.1, hcond.2.2.2.1, hcond.2.1, hcond.2.2.1⟩
            · cases hp
        · cases hp
    · cases hp

theorem parseDMYHM_valid {l : List Char} {dt : DateTime}
    (hp : parseDMYHM l = some dt) : dt.Valid := by
  unfold parseDMYHM at hp
  split at hp
  next d m y c r5 hcore =>
    split at hp
    · split at hp
      next h mi hhm =>
        simp only [Option.some.injEq] at hp
        subst hp
        obtain ⟨k1, k2, k3, k4⟩ := parseDMYCore_le hcore
        obtain ⟨k5, k6⟩ := parseHM_le hhm
        exact ⟨k3, k4, k1, k2, k5, k6⟩
      · cases hp
    · cases hp
  · cases hp

theorem parseDMY_valid {l : List Char} {dt : DateTime}
    (hp : parseDMY l = some dt) : dt.Valid := by
  unfold parseDMY at hp
  split at hp
  next d m y hcore =>
    simp only [Option.some.injEq] at hp
    subst hp
    obtain ⟨k1, k2, k3, k4⟩ := parseDMYCore_le hcore
    exact ⟨k3, k4, k1, k2, by dsimp only; omega, by dsimp only; omega⟩
  · cases hp

/-- A parsed timestamp is a real UTC instant whenever the reference instant
is real; unparsable text gives `none`, never an error. -/
theorem parse_eksi_date_fast_valid {s : String} {ref dt : DateTime}
    (hp : parse_eksi_date_fast s ref = some dt) (href : ref.Valid) : dt.Valid := by
  obtain ⟨h1, h2, h3, h4, h5, h6⟩ := href
  unfold parse_eksi_date_fast at hp
  dsimp only at hp
  split_ifs at hp with hbug hdun
  · -- the relative-today branch
    split at hp
    next h m hhm =>
      simp only [Option.some.injEq] at hp
      subst hp
      obtain ⟨k5, k6⟩ := parseHM_le hhm
      exact istanbulToUtc_valid ⟨h1, h2, h3, h4, k5, k6⟩
    · cases hp
  · -- the relative-yesterday branch
    split at hp
    next h m hhm =>
      simp only [Option.some.injEq] at hp
      subst hp
      obtain ⟨k5, k6⟩ := parseHM_le hhm
      obtain ⟨g1, g2, g3, g4, _, _⟩ := prevDay_valid ⟨h1, h2, h3, h4, h5, h6⟩
      exact istanbulToUtc_valid ⟨g1, g2, g3, g4, k5, k6⟩
    · cases hp
  · -- the absolute formats
    split at hp
    next dt1 habs =>
      simp only [Option.some.injEq] at hp
      subst hp
      exact istanbulToUtc_valid (parseDMYHM_valid habs)
    next habs =>
      split at hp
      next dt2 habs2 =>
        simp only [Option.some.injEq] at hp
        subst hp
        exact istanbulToUtc_valid (parseDMY_valid habs2)
      · cases hp

/-! ## Lemmas about the batch loop, the loader and the slug -/

/-- The batch loop is the concatenation, in dispatch order, of every
subject's own result, and attempts every subject exactly once. -/
theorem main_run_foldl (limit : Nat) :
    ∀ (companies : List (CompanyInfo × SubjectEnv)) (rs : List Record) (n : Nat),
      companies.foldl
          (fun acc ce => (acc.1 ++ process_company_fast ce.2 ce.1 limit, acc.2 + 1))
          (rs, n) =
        (rs ++ (companies.map fun ce => process_company_fast ce.2 ce.1 limit).flatten,
          n + companies.length) := by
  intro companies
  induction companies with
  | nil => intro rs n; simp
  | cons ce rest ih =>
    intro rs n
    rw [List.foldl_cons, ih]
    simp only [List.map_cons, List.flatten_cons, List.length_cons, List.append_assoc,
      Prod.mk.injEq]
    exact ⟨trivial, by omega⟩

theorem main_run_eq (limit : Nat) (companies : List (CompanyInfo × SubjectEnv)) :
    main_run limit companies =
      ((companies.map fun ce => process_company_fast ce.2 ce.1 limit).flatten,
        companies.length) := by
  unfold main_run
  rw [main_run_foldl]
  simp

/-- A dict insertion only ever puts the inserted pair or an existing one in
the table. -/
theorem mem_upsert {k' : String} {v' : CompanyInfo} {k : String} {v : CompanyInfo} :
    ∀ {l : List (String × CompanyInfo)},
      (k', v') ∈ upsert k v l → (k', v') = (k, v) ∨ (k', v') ∈ l := by
  intro l
  induction l with
  | nil => intro h; simp [upsert] at h; left; simp [h]
  | cons p rest ih =>
    intro h
    unfold upsert at h
    by_cases hk : p.1 = k
    · rw [if_pos hk] at h
      rcases List.mem_cons.mp h with h | h
      · exact Or.inl h
      · exact Or.inr (List.mem_cons_of_mem _ h)
    · rw [if_neg hk] at h
      rcases List.mem_cons.mp h with h | h
      · exact Or.inr (h ▸ List.mem_cons_self _ _)
      · rcases ih h with h | h
        · exact Or.inl h
        · exact Or.inr (List.mem_cons_of_mem _ h)

/-- Folding dict insertions preserves any property of the inserted values. -/
theorem foldl_upsert_prop {α : Type} (key : α → String) (val : α → CompanyInfo)
    (P : CompanyInfo → Prop) (hval : ∀ a, P (val a)) :
    ∀ (entries : List α) (init : List (String × CompanyInfo)),
      (∀ kc ∈ init, P kc.2) →
      ∀ kc ∈ entries.foldl (fun acc a => upsert (key a) (val a) acc) init, P kc.2 := by
  intro entries
  induction entries with
  | nil => intro init hinit kc hkc; exact hinit kc hkc
  | cons a rest ih =>
    intro init hinit kc hkc
    refine ih (upsert (key a) (val a) init) ?_ kc hkc
    intro kc' hkc'
    rcases mem_upsert hkc' with h | h
    · have h2 : kc'.2 = val a := congrArg Prod.snd h
      rw [h2]; exact hval a
    · exact hinit kc' h

/-- The slug passes distribute over concatenation. -/
theorem slugChars_append (l1 l2 : List Char) :
    slugChars (l1 ++ l2) = slugChars l1 ++ slugChars l2 := by
  simp [slugChars, List.map_append, List.filter_append]

/-- On one character, the source's chain of whole-string passes computes the
spec's per-character contribution. -/
theorem slugChars_single (c : Char) : slugChars [c] = slugSpecChar c := by
  simp only [slugChars, slugSpecChar, List.map_cons, List.map_nil]
  generalize pyLowerChar c = d
  by_cases h1 : d = 'ı'
  · subst h1; decide
  by_cases h2 : d = 'ğ'
  · subst h2; decide
  by_cases h3 : d = 'ü'
  · subst h3; decide
  by_cases h4 : d = 'ş'
  · subst h4; decide
  by_cases h5 : d = 'ö'
  · subst h5; decide
  by_cases h6 : d = 'ç'
  · subst h6; decide
  by_cases h7 : d = ' '
  · subst h7; decide
  by_cases h8 : d = '.'
  · subst h8; decide
  by_cases h9 : d = ','
  · subst h9; decide
  simp [h1, h2, h3, h4, h5, h6, h7, h8, h9, List.filter_cons, List.filter_nil]

/-- The source's slug equals the spec's character-wise description. -/
theorem slugChars_eq_spec (l : List Char) :
    slugChars l = (l.map slugSpecChar).flatten := by
  induction l with
  | nil => rfl
  | cons c rest ih =>
    rw [show (c :: rest) = [c] ++ rest from rfl, slugChars_append, slugChars_single, ih]
    simp

/-- Items that all extract keep their count through `filterMap`. -/
theorem length_filterMap_isSome {α β : Type} (f : α → Option β) :
    ∀ l : List α, (∀ x ∈ l, (f x).isSome) → (l.filterMap f).length = l.length := by
  intro l
  induction l with
  | nil => intro _; simp
  | cons x rest ih =>
    intro h
    cases hf : f x with
    | none =>
      have := h x (List.mem_cons_self _ _)
      rw [hf] at this
      simp at this
    | some b =>
      simp only [List.filterMap_cons, hf, List.length_cons]
      rw [ih fun y hy => h y (List.mem_cons_of_mem _ hy)]

/-! ## The claims -/

/-- A record of one subject's run carries the walk's single fetch instant. -/
theorem process_company_fetchTs {env : SubjectEnv} {company : CompanyInfo}
    {limit : Nat} {r : Record} (h : r ∈ process_company_fast env company limit) :
    r.fetch_timestamp_utc = env.walk.fetchTs := by
  unfold process_company_fast at h
  split_ifs at h with hc
  · simp at h
  · cases hterm : company.eksi_search_terms.take 1 with
    | nil => rw [hterm] at h; simp at h
    | cons term rest0 =>
      rw [hterm] at h
      cases htop : env.topicInfo with
      | none => rw [htop] at h; simp at h
      | some ts =>
        obtain ⟨tu, st⟩ := ts
        rw [htop] at h
        dsimp only at h
        unfold fetch_entries_fast at h
        obtain ⟨rest, heq, hmem⟩ := fetchLoop_append env.walk company term tu limit st []
        rw [heq] at h
        simp only [List.nil_append] at h
        obtain ⟨p, _, _, items, _, it, _, hext⟩ := hmem r h
        exact (extractRecord_some hext).2.2.1

/-- C2: for every subject and every run, the subject's emitted records never
exceed the harvest limit — the walker's loop condition and mid-page check
keep the accumulator at or below the cap, and the runner never extends past
it. -/
theorem claim_C2_harvest_cap (env : SubjectEnv) (company : CompanyInfo) (limit : Nat) :
    (process_company_fast env company limit).length ≤ limit := by
  unfold process_company_fast
  split_ifs with hc
  · simp
  · split
    · simp
    · split
      · simp
      · exact fetchLoop_length _ _ _ _ _ _ _ (by simp)

/-- C9: within one subject's run every emitted record carries the same fetch
timestamp, the single UTC instant captured at the walk's start. -/
theorem claim_C9_fetch_timestamp_constant (env : SubjectEnv) (company : CompanyInfo)
    (limit : Nat) (r1 r2 : Record)
    (h1 : r1 ∈ process_company_fast env company limit)
    (h2 : r2 ∈ process_company_fast env company limit) :
    r1.fetch_timestamp_utc = r2.fetch_timestamp_utc :=
  (process_company_fetchTs h1).trans (process_company_fetchTs h2).symm

/-- C3: every emitted record has a non-empty item identifier and a
normalized timestamp that is either a valid UTC instant or `none`; and
emission is decided by the item's fields alone — timestamp-parse failure
neither raises (the normalizer is total) nor prevents the record. -/
theorem claim_C3_record_invariants (env : WalkEnv) (topic_url : String)
    (company : CompanyInfo) (term : String) (start limit : Nat)
    (href : env.nowIst.Valid) :
    (∀ r ∈ (fetch_entries_fast env topic_url company term start limit).1,
        r.entry_id ≠ "" ∧
          (r.entry_datetime_utc = none ∨ ∃ d, r.entry_datetime_utc = some d ∧ d.Valid))
      ∧ ∀ (ctx : ExtractCtx) (item : RawItem),
          (extractRecord ctx item).isSome ↔ extractOk item := by
  constructor
  · intro r hr
    unfold fetch_entries_fast at hr
    obtain ⟨rest, heq, hmem⟩ := fetchLoop_append env company term topic_url limit start []
    rw [heq] at hr
    simp only [List.nil_append] at hr
    obtain ⟨p, _, _, items, _, it, _, hext⟩ := hmem r hr
    obtain ⟨hid, _, _, hdt, _, _⟩ := extractRecord_some hext
    refine ⟨hid, ?_⟩
    cases hparse : parse_eksi_date_fast r.entry_date_str
        (pageCtx env company term topic_url p).nowIst with
    | none => left; rw [hdt]; exact hparse
    | some d =>
      right
      exact ⟨d, by rw [hdt]; exact hparse, parse_eksi_date_fast_valid hparse href⟩
  · intro ctx item
    exact extractRecord_isSome_iff ctx item

/-- C5: when loading the starting page fails (navigation error or the
item-list selector wait timing out before any item is collected), the walk
returns the empty sequence and requests no earlier page. -/
theorem claim_C5_start_page_failure (env : WalkEnv) (topic_url : String)
    (company : CompanyInfo) (term : String) (start limit : Nat)
    (hs : 1 ≤ start) (hl : 1 ≤ limit) (hfail : env.pages start = none) :
    fetch_entries_fast env topic_url company term start limit = ([], [start]) := by
  unfold fetch_entries_fast
  cases start with
  | zero => omega
  | succ page =>
    rw [fetchLoop_succ, if_neg (by simp; omega), hfail]

/-- C6: a failure inside one subject's run is isolated: that subject
contributes the empty list, every subject is still attempted exactly once
and every other subject's records are kept in order. -/
theorem claim_C6_subject_isolation (limit : Nat)
    (pre post : List (CompanyInfo × SubjectEnv)) (c : CompanyInfo) (env : SubjectEnv)
    (hcrash : env.crash = true) :
    process_company_fast env c limit = []
      ∧ (main_run limit (pre ++ (c, env) :: post)).1 =
          (main_run limit pre).1 ++ (main_run limit post).1
      ∧ (main_run limit (pre ++ (c, env) :: post)).2 = pre.length + 1 + post.length := by
  have hempty : process_company_fast env c limit = [] := by
    unfold process_company_fast
    rw [if_pos hcrash]
  refine ⟨hempty, ?_, ?_⟩
  · rw [main_run_eq, main_run_eq, main_run_eq]
    simp [hempty]
  · rw [main_run_eq]
    simp
    omega

/-- C10: both accepted input shapes truncate each company's search-term list
with `[:1]`, so every subject handed to the core carries at most one search
term. -/
theorem claim_C10_loader_truncates_terms
    (oldEntries : List (String × CompanyDataOld)) (newEntries : List CompanyDataNew)
    (k : String) (c : CompanyInfo)
    (h : (k, c) ∈ load_companies_old oldEntries ∨ (k, c) ∈ load_companies_new newEntries) :
    c.eksi_search_terms.length ≤ 1 := by
  rcases h with h | h
  · unfold load_companies_old at h
    exact foldl_upsert_prop _ _ (fun ci => ci.eksi_search_terms.length ≤ 1)
      (fun a => by dsimp only; simp only [List.length_take]; omega)
      oldEntries [] (by simp) (k, c) h
  · unfold load_companies_new at h
    exact foldl_upsert_prop _ _ (fun ci => ci.eksi_search_terms.length ≤ 1)
      (fun a => by dsimp only; simp only [List.length_take]; omega)
      newEntries [] (by simp) (k, c) h

/-- C8: slugification is the pure transform the spec describes — lowercase,
the six fixed letter substitutions, space to hyphen, periods and commas
stripped — and in particular sends `"Türk Telekom"` to `"turk-telekom"`. -/
theorem claim_C8_slugify :
    slugify "Türk Telekom" = "turk-telekom"
      ∧ (∀ search_term : String, slugify search_term = slugifySpec search_term)
      ∧ topicUrlOf "Türk Telekom" = "https://eksisozluk.com/turk-telekom" := by
  refine ⟨by decide, ?_, by decide⟩
  intro s
  simp [slugify, slugifySpec, slugChars_eq_spec]

/-- The Istanbul reference instant of the spec's normalizer examples,
2024-05-10T10:00 at +03:00. -/
def refC4 : DateTime := ⟨2024, 5, 10, 10, 0⟩

/-- C4 fails as stated: `"09.05.2024"` normalizes to midnight *Istanbul*,
which is 2024-05-08T21:00:00Z, not the 2024-05-09T00:00:00Z the spec
claims. -/
theorem claim_C4_counterexample :
    parse_eksi_date_fast "09.05.2024" refC4 = some ⟨2024, 5, 8, 21, 0⟩
      ∧ parse_eksi_date_fast "09.05.2024" refC4 ≠ some ⟨2024, 5, 9, 0, 0⟩ := by
  constructor <;> decide

/-- C4 (amended): the normalizer's example outputs, with the date-only form
corrected to 2024-05-08T21:00:00Z (midnight at the zone's +03:00 standard
offset); the absolute forms are reference-independent, and unrecognized
text maps to `none` for every reference — no exception escapes. -/
theorem claim_C4_amended_normalizer :
    parse_eksi_date_fast "bugün 14:05" refC4 = some ⟨2024, 5, 10, 11, 5⟩
      ∧ parse_eksi_date_fast "dün 09:00" refC4 = some ⟨2024, 5, 9, 6, 0⟩
      ∧ (∀ ref : DateTime, parse_eksi_date_fast "09.05.2024 12:00" ref = some ⟨2024, 5, 9, 9, 0⟩)
      ∧ (∀ ref : DateTime, parse_eksi_date_fast "09.05.2024" ref = some ⟨2024, 5, 8, 21, 0⟩)
      ∧ (∀ ref : DateTime, parse_eksi_date_fast "garbage" ref = none) := by
  refine ⟨by decide, by decide, fun ref => ?_, fun ref => ?_, fun ref => ?_⟩ <;> rfl

/-- C7: pages are requested in strictly descending index order, stepping
down by exactly one from the start page and never below page 1; and the
records a walk keeps for any loaded page are an initial run of that page's
reverse-DOM-order extraction. -/
theorem claim_C7_walk_order (env : WalkEnv) (company : CompanyInfo)
    (term topic_url : String) (limit start : Nat) :
    (∃ k, k ≤ start ∧
        (fetch_entries_fast env topic_url company term start limit).2 =
          (List.range k).map (fun i => start - i))
      ∧ (∀ p ∈ (fetch_entries_fast env topic_url company term start limit).2,
            1 ≤ p ∧ p ≤ start)
      ∧ ∀ p items, 1 ≤ p → env.pages p = some items →
          ∃ n, ((fetch_entries_fast env topic_url company term start limit).1.filter
              (fun r => r.page_number == p)) =
            ((items.reverse).filterMap
              (extractRecord (pageCtx env company term topic_url p))).take n := by
  obtain ⟨k, hk, hvis⟩ := fetchLoop_visited env company term topic_url limit start []
  refine ⟨⟨k, hk, hvis⟩, ?_, ?_⟩
  · intro p hp
    unfold fetch_entries_fast at hp
    rw [hvis] at hp
    obtain ⟨i, hi, rfl⟩ := List.mem_map.mp hp
    have := List.mem_range.mp hi
    exact ⟨by omega, by omega⟩
  · intro p items hp1 henvp
    rcases le_or_lt p start with hle | hgt
    · unfold fetch_entries_fast
      exact fetchLoop_filter_page env company term topic_url limit start []
        (by simp) p items hp1 hle henvp
    · refine ⟨0, ?_⟩
      unfold fetch_entries_fast
      obtain ⟨rest, heq, hmem⟩ := fetchLoop_append env company term topic_url limit start []
      rw [heq]
      simp only [List.nil_append, List.take_zero]
      refine List.filter_eq_nil_iff.mpr ?_
      intro r hr
      obtain ⟨q, hq1, hq2, _, _, it, _, hext⟩ := hmem r hr
      have hpn : r.page_number = q := (extractRecord_some hext).2.1
      simp only [beq_iff_eq]
      omega

/-- C1: a walk starting at page 3 with five extractable items on each page
and a limit of 7 returns the five page-3 records in reverse item order,
then the first two of page 2's reverse order, and requests pages 3 and 2
only — never page 1. -/
theorem claim_C1_reverse_walk_limit_seven (env : WalkEnv) (company : CompanyInfo)
    (term topic_url : String)
    (i1 i2 i3 i4 i5 j1 j2 j3 j4 j5 k1 k2 k3 k4 k5 : RawItem)
    (h3 : env.pages 3 = some [i1, i2, i3, i4, i5])
    (h2 : env.pages 2 = some [j1, j2, j3, j4, j5])
    (h1 : env.pages 1 = some [k1, k2, k3, k4, k5])
    (hok : ∀ it ∈ [i1, i2, i3, i4, i5, j1, j2, j3, j4, j5], extractOk it) :
    fetch_entries_fast env topic_url company term 3 7 =
      ([i5, i4, i3, i2, i1].filterMap (extractRecord (pageCtx env company term topic_url 3))
          ++ ([j5, j4, j3, j2, j1].filterMap
              (extractRecord (pageCtx env company term topic_url 2))).take 2,
        [3, 2])
      ∧ ([i5, i4, i3, i2, i1].filterMap
          (extractRecord (pageCtx env company term topic_url 3))).length = 5
      ∧ (([j5, j4, j3, j2, j1].filterMap
          (extractRecord (pageCtx env company term topic_url 2))).take 2).length = 2 := by
  have hoki : ∀ it ∈ [i5, i4, i3, i2, i1],
      (extractRecord (pageCtx env company term topic_url 3) it).isSome := by
    intro it hit
    refine extractOk_isSome (hok it ?_) _
    simp only [List.mem_cons, List.not_mem_nil, or_false] at hit ⊢
    tauto
  have hokj : ∀ it ∈ [j5, j4, j3, j2, j1],
      (extractRecord (pageCtx env company term topic_url 2) it).isSome := by
    intro it hit
    refine extractOk_isSome (hok it ?_) _
    simp only [List.mem_cons, List.not_mem_nil, or_false] at hit ⊢
    tauto
  have hA : ([i5, i4, i3, i2, i1].filterMap
      (extractRecord (pageCtx env company term topic_url 3))).length = 5 :=
    length_filterMap_isSome _ _ hoki
  have hB : ([j5, j4, j3, j2, j1].filterMap
      (extractRecord (pageCtx env company term topic_url 2))).length = 5 :=
    length_filterMap_isSome _ _ hokj
  have hBtake : (([j5, j4, j3, j2, j1].filterMap
      (extractRecord (pageCtx env company term topic_url 2))).take 2).length = 2 := by
    simp [List.length_take, hB]
  refine ⟨?_, hA, hBtake⟩
  have hrev_i : ([i1, i2, i3, i4, i5] : List RawItem).reverse = [i5, i4, i3, i2, i1] := rfl
  have hrev_j : ([j1, j2, j3, j4, j5] : List RawItem).reverse = [j5, j4, j3, j2, j1] := rfl
  have hacc2 : processItems (pageCtx env company term topic_url 3) 7
      (([i1, i2, i3, i4, i5] : List RawItem).reverse) [] =
      [i5, i4, i3, i2, i1].filterMap (extractRecord (pageCtx env company term topic_url 3)) := by
    rw [hrev_i, processItems_eq]
    simp only [List.length_nil, Nat.sub_zero, List.nil_append]
    exact List.take_of_length_le (by rw [hA]; omega)
  have hacc3 : processItems (pageCtx env company term topic_url 2) 7
      (([j1, j2, j3, j4, j5] : List RawItem).reverse)
      ([i5, i4, i3, i2, i1].filterMap (extractRecord (pageCtx env company term topic_url 3))) =
      [i5, i4, i3, i2, i1].filterMap (extractRecord (pageCtx env company term topic_url 3))
        ++ ([j5, j4, j3, j2, j1].filterMap
            (extractRecord (pageCtx env company term topic_url 2))).take 2 := by
    rw [hrev_j, processItems_eq, hA]
  have hlen : ([i5, i4, i3, i2, i1].filterMap (extractRecord (pageCtx env company term topic_url 3))
      ++ ([j5, j4, j3, j2, j1].filterMap
          (extractRecord (pageCtx env company term topic_url 2))).take 2).length = 7 := by
    simp only [List.length_append, hA, hBtake]
  unfold fetch_entries_fast
  rw [show (3 : Nat) = 2 + 1 from rfl, fetchLoop_succ, if_neg (by simp)]
  rw [show (2 : Nat) + 1 = 3 from rfl, h3]
  dsimp only
  rw [hacc2]
  rw [show (2 : Nat) = 1 + 1 from rfl, fetchLoop_succ, if_neg (by rw [hA]; omega)]
  rw [show (1 : Nat) + 1 = 2 from rfl, h2]
  dsimp only
  rw [hacc3]
  rw [show (1 : Nat) = 0 + 1 from rfl, fetchLoop_succ, if_pos (by rw [hlen])]

/-! ## Concrete fixtures and witnesses -/

/-- `extractOk` is decidable: it coincides with extraction succeeding under
any (here: a dummy) context. -/
instance (it : RawItem) : Decidable (extractOk it) :=
  decidable_of_iff _
    (extractRecord_isSome_iff
      ⟨⟨"", "", "", [], [], "", true⟩, "", "", 0, ⟨0, 0, 0, 0, 0⟩, ⟨0, 0, 0, 0, 0⟩⟩ it)

/-- A company fixture. -/
def compW : CompanyInfo :=
  ⟨"TTKOM", "Türk Telekom A.Ş.", "Türk Telekom", ["türk telekom"],
    ["türk telekom"], "telekom", true⟩

/-- A well-formed page item with identifier `n`. -/
def itW (n : Nat) : RawItem :=
  ⟨some (toString n), some " some content ", some "an author", some "bugün 14:05", false⟩

/-- An item whose date text is unparsable (the record is still emitted,
with an unknown timestamp). -/
def itGarbage : RawItem :=
  ⟨some "9999", some "text", some "author", some "garbage", false⟩

/-- A three-page resource with five well-formed items per page; deeper
page indices fail to load. -/
def envC1 : WalkEnv :=
  { pages := fun p =>
      if p = 3 then some [itW 31, itW 32, itW 33, itW 34, itW 35]
      else if p = 2 then some [itW 21, itW 22, itW 23, itW 24, itW 25]
      else if p = 1 then some [itW 11, itW 12, itW 13, itW 14, itW 15]
      else none
    nowIst := refC4
    fetchTs := ⟨2024, 5, 10, 7, 30⟩ }

theorem claim_C1_witness :
    fetch_entries_fast envC1 "https://eksisozluk.com/turk-telekom" compW "türk telekom" 3 7 =
      ([itW 35, itW 34, itW 33, itW 32, itW 31].filterMap
          (extractRecord (pageCtx envC1 compW "türk telekom"
            "https://eksisozluk.com/turk-telekom" 3))
        ++ ([itW 25, itW 24, itW 23, itW 22, itW 21].filterMap
            (extractRecord (pageCtx envC1 compW "türk telekom"
              "https://eksisozluk.com/turk-telekom" 2))).take 2,
        [3, 2])
      ∧ ([itW 35, itW 34, itW 33, itW 32, itW 31].filterMap
          (extractRecord (pageCtx envC1 compW "türk telekom"
            "https://eksisozluk.com/turk-telekom" 3))).length = 5
      ∧ (([itW 25, itW 24, itW 23, itW 22, itW 21].filterMap
          (extractRecord (pageCtx envC1 compW "türk telekom"
            "https://eksisozluk.com/turk-telekom" 2))).take 2).length = 2 :=
  claim_C1_reverse_walk_limit_seven envC1 compW "türk telekom"
    "https://eksisozluk.com/turk-telekom"
    (itW 31) (itW 32) (itW 33) (itW 34) (itW 35)
    (itW 21) (itW 22) (itW 23) (itW 24) (itW 25)
    (itW 11) (itW 12) (itW 13) (itW 14) (itW 15)
    rfl rfl rfl (by decide)

/-- A single-page resource holding one parsable-dated and one
garbage-dated item. -/
def envC3 : WalkEnv :=
  { pages := fun p => if p = 1 then some [itW 100, itGarbage] else none
    nowIst := refC4
    fetchTs := ⟨2024, 5, 10, 7, 30⟩ }

theorem claim_C3_witness :
    envC3.nowIst.Valid
      ∧ ((∀ r ∈ (fetch_entries_fast envC3 "https://eksisozluk.com/turk-telekom" compW
            "türk telekom" 1 5).1,
          r.entry_id ≠ "" ∧
            (r.entry_datetime_utc = none ∨ ∃ d, r.entry_datetime_utc = some d ∧ d.Valid))
        ∧ ∀ (ctx : ExtractCtx) (item : RawItem),
            (extractRecord ctx item).isSome ↔ extractOk item) :=
  ⟨by decide,
    claim_C3_record_invariants envC3 "https://eksisozluk.com/turk-telekom" compW
      "türk telekom" 1 5 (by decide)⟩

theorem claim_C5_witness :
    fetch_entries_fast envC1 "https://eksisozluk.com/turk-telekom" compW
      "türk telekom" 4 5 = ([], [4]) :=
  claim_C5_start_page_failure envC1 "https://eksisozluk.com/turk-telekom" compW
    "türk telekom" 4 5 (by decide) (by decide) rfl

/-- A healthy subject environment. -/
def envGood : SubjectEnv :=
  ⟨false, some ("https://eksisozluk.com/turk-telekom", 1), envC3⟩

/-- A subject environment whose run always fails. -/
def envBad : SubjectEnv :=
  ⟨true, some ("https://eksisozluk.com/turk-telekom", 1), envC3⟩

/-- Three healthy subjects dispatched before the failing one. -/
def preW : List (CompanyInfo × SubjectEnv) :=
  [(compW, envGood), (compW, envGood), (compW, envGood)]

/-- Six healthy subjects dispatched after it — ten subjects in all, the
fourth failing. -/
def postW : List (CompanyInfo × SubjectEnv) :=
  [(compW, envGood), (compW, envGood), (compW, envGood),
    (compW, envGood), (compW, envGood), (compW, envGood)]

theorem claim_C6_witness :
    process_company_fast envBad compW 5 = []
      ∧ (main_run 5 (preW ++ (compW, envBad) :: postW)).1 =
          (main_run 5 preW).1 ++ (main_run 5 postW).1
      ∧ (main_run 5 (preW ++ (compW, envBad) :: postW)).2 =
          preW.length + 1 + postW.length :=
  claim_C6_subject_isolation 5 preW postW compW envBad rfl

/-- The first and second record of the fixture subject's run. -/
def recC9a : Record := (process_company_fast envGood compW 5).getD 0 default

def recC9b : Record := (process_company_fast envGood compW 5).getD 1 default

theorem claim_C9_witness :
    recC9a.fetch_timestamp_utc = recC9b.fetch_timestamp_utc :=
  claim_C9_fetch_timestamp_constant envGood compW 5 recC9a recC9b
    (by decide) (by decide)

/-- An old-shape input whose one company lists two search terms. -/
def oldW : List (String × CompanyDataOld) :=
  [("TTKOM", ⟨"TTKOM", "Türk Telekom A.Ş.", "Türk Telekom", ["türk telekom"],
    ["türk telekom", "ttkom"], "telekom", none⟩)]

/-- A new-shape input whose one company lists two search terms. -/
def newW : List CompanyDataNew :=
  [⟨some "GARAN", none, none, none, some ["garanti", "garanti bbva"], none, some true⟩]

theorem claim_C10_witness : compW.eksi_search_terms.length ≤ 1 :=
  claim_C10_loader_truncates_terms oldW newW "TTKOM" compW (Or.inl (by decide))
